import Mathlib

/-!
# resultx: response envelopes, pagination arithmetic

A shallow embedding of the Go package `resultx` (`result.go`, `options.go`,
`pagination.go`, `search.go`) together with the properties its specification
states.

Conventions of the embedding:

* Go's fixed-width signed integers are mathematical integers (`Int`) together
  with an explicit two's-complement wrap-around after every arithmetic
  operation. The width of `int` is platform dependent (32 or 64 bits) and is a
  parameter, `IntSize`; `int64` is always 64 bits wide.
* A Go pointer field that is either `nil` or points to a private copy of a value
  is an `Option`.
* An operation that can stop with a run-time fault (integer division by zero,
  a method call through a nil interface, a call of a nil function value, a
  fault inside a function or method handed in by the caller) returns
  `Except Fault`.
-/

namespace Resultx

/-! ## Machine integers -/

/-- Width of Go's platform-dependent `int` type. -/
inductive IntSize where
  | bits32
  | bits64
  deriving DecidableEq, Repr

/-- Number of bits of an `int` on the given platform. -/
def IntSize.bits : IntSize → Nat
  | .bits32 => 32
  | .bits64 => 64

/-- Two's-complement wrap-around of a mathematical integer to a signed integer
of `bits` bits. -/
def wrap (bits : Nat) (x : Int) : Int :=
  (x + 2 ^ (bits - 1)) % 2 ^ bits - 2 ^ (bits - 1)

/-- Smallest value of a signed integer of `bits` bits. -/
def minOf (bits : Nat) : Int := -(2 ^ (bits - 1))

/-- Largest value of a signed integer of `bits` bits. -/
def maxOf (bits : Nat) : Int := 2 ^ (bits - 1) - 1

/-- The integer `x` is a value of the signed integer type of `bits` bits. -/
def inRange (bits : Nat) (x : Int) : Prop :=
  minOf bits ≤ x ∧ x ≤ maxOf bits

instance (bits : Nat) (x : Int) : Decidable (inRange bits x) := by
  unfold inRange
  exact inferInstance

/-- Run-time faults of the Go runtime that the embedded code could raise. -/
inductive Fault where
  | divideByZero
  | nilDereference
  deriving DecidableEq, Repr

/-- Go's `x + y` on signed integers of `bits` bits. -/
def goAdd (bits : Nat) (x y : Int) : Int := wrap bits (x + y)

/-- Go's `x - y` on signed integers of `bits` bits. -/
def goSub (bits : Nat) (x y : Int) : Int := wrap bits (x - y)

/-- Go's `x / y` on signed integers of `bits` bits: the quotient is truncated
toward zero, a zero divisor is a run-time fault, and the one overflowing
quotient (most negative value divided by `-1`) wraps around. -/
def goDiv (bits : Nat) (x y : Int) : Except Fault Int :=
  if y = 0 then .error .divideByZero else .ok (wrap bits (x.tdiv y))

/-- Go's conversion `int(x)` of an `int64` value on the given platform: the
value is kept when it fits and truncated to the low bits otherwise. -/
def toInt (sz : IntSize) (x : Int) : Int := wrap sz.bits x

/-- Go's conversion `int64(x)` of an `int` value: an `int` is never wider than
64 bits, so the sign extension keeps the value. -/
def toInt64 (x : Int) : Int := x

deriving instance DecidableEq for Except

/-! ## pagination.go -/

/-- Limit used when the requested limit is below 1. -/
def defaultLimit : Int := 10

/-- Largest limit a request may carry. -/
def maxLimit : Int := 100

/-- Client-supplied window: `Offset` and `Limit` are Go `int`s. -/
structure PaginationRequest where
  Offset : Int
  Limit : Int
  deriving DecidableEq, Repr

/-- Server-computed pagination metadata. `Total` is an `int64`, the other
numeric fields are `int`s. -/
structure Pagination where
  Total : Int
  Page : Int
  TotalPages : Int
  Limit : Int
  Offset : Int
  HasNext : Bool
  HasPrev : Bool
  deriving DecidableEq, Repr

/-- Embedding of `NewPaginationRequest`: the three guarded assignments of the
source, in order, followed by the construction of the struct. The function
performs comparisons only, so no wrap-around is involved. -/
def NewPaginationRequest (offset : Int) (limit : Int) : PaginationRequest := Id.run do
  let mut offset := offset
  let mut limit := limit
  if offset < 0 then
    offset := 0
  if limit < 1 then
    limit := defaultLimit
  if limit > maxLimit then
    limit := maxLimit
  return { Offset := offset, Limit := limit }

/-- Embedding of the method `GetOffset`. -/
def PaginationRequest.GetOffset (p : PaginationRequest) : Int := p.Offset

/-- Embedding of the method `GetLimit`. -/
def PaginationRequest.GetLimit (p : PaginationRequest) : Int := p.Limit

/-- Embedding of `NewPagination` for a platform whose `int` has `sz.bits` bits.
`total` is an `int64`; `offset` and `limit` are `int`s. Every arithmetic
operation of the source appears with the width it is evaluated at:
`offset / limit` and `+ 1` at the width of `int`, `total + int64(limit) - 1`
and its division at 64 bits, `int(...)` as a conversion back to `int`, and
`offset + limit` at the width of `int` before it is widened to `int64`. The
two divisions are the only operations that could fault. -/
def NewPagination (sz : IntSize) (total : Int) (offset : Int) (limit : Int) :
    Except Fault Pagination := do
  let mut page : Int := 1
  let mut totalPages : Int := 0
  if limit > 0 then
    page := goAdd sz.bits (← goDiv sz.bits offset limit) 1
    totalPages := toInt sz
      (← goDiv 64 (goSub 64 (goAdd 64 total (toInt64 limit)) 1) (toInt64 limit))
  let hasNext : Bool := decide (toInt64 (goAdd sz.bits offset limit) < total)
  let hasPrev : Bool := decide (offset > 0)
  return {
    Total := total
    Page := page
    TotalPages := totalPages
    Offset := offset
    Limit := limit
    HasNext := hasNext
    HasPrev := hasPrev
  }

/-- Specification of the ceiling of `total / limit` in the words of the
claim about `TotalPages`: `k` is the least integer `k ≥ 0` with
`k * limit ≥ total`. -/
def IsCeilDiv (k total limit : Int) : Prop :=
  0 ≤ k ∧ total ≤ k * limit ∧ ∀ j : Int, 0 ≤ j → total ≤ j * limit → k ≤ j

/-! ## result.go and options.go -/

/-- Transport form of a failure. -/
structure Error where
  Code : String
  Message : String
  deriving DecidableEq, Repr

/-- Modelled from the spec: the declaration of the struct `Metadata` is not part
of the available sources. The specification describes it as an extensible
container that currently holds an optional `Pagination`; `options.go` assigns a
`*Pagination` to its field `Pagination`. The zero value `Metadata{}` has no
pagination. -/
structure Metadata where
  Pagination : Option Pagination := none
  deriving DecidableEq, Repr

/-- Embedding of the function type `MetaOption`, `func(*Metadata)`. A value of
the type is either nil (`none`) or a function; calling the function on a
metadata holder either returns, leaving the holder in a new state, or stops
with a fault. -/
abbrev MetaOption := Option (Metadata → Except Fault Metadata)

/-- The call `opt(m)` of the source on the holder `m`: calling a nil function
value is a run-time fault, calling a function runs it. -/
def callOption (opt : MetaOption) (m : Metadata) : Except Fault Metadata :=
  match opt with
  | none => .error Fault.nilDereference
  | some f => f m

/-- The option is not nil and calling it returns normally, whatever holder it
is handed. -/
def ReturnsNormally (opt : MetaOption) : Prop :=
  ∃ f : Metadata → Except Fault Metadata, opt = some f ∧ ∀ m, ∃ m1, f m = .ok m1

/-- Embedding of `WithPagination`: the returned option is a function that
stores a pointer to the copy of `pagination` captured when the option was
built, and returns. -/
def WithPagination (pagination : Pagination) : MetaOption :=
  some (fun m => .ok { m with Pagination := some pagination })

/-- Embedding of the generic struct `Result[T]`. The pointer fields `Data`,
`Error` and `Meta` are optional; `Message` is a plain string whose zero value is
the empty string. -/
structure Result (T : Type) where
  Success : Bool
  Data : Option T := none
  Message : String := ""
  Error : Option Error := none
  Meta : Option Metadata := none

/-- A non-nil value of Go's `error` interface, represented by what a call of its
method `Error()` does: it returns a text or it stops with a fault (as the method
of a nil pointer that dereferences its receiver does). The nil interface value
is `none` of `Option GoError`. -/
structure GoError where
  Error : Except Fault String

/-- Embedding of `Ok`. With at least one option a fresh `Metadata{}` is allocated
and every option is called on it, in the order of the list; a fault in one of
the calls ends `Ok` without a result. With no option the field `Meta` keeps its
zero value. -/
def Ok {T : Type} (val : T) (message : String) (opts : List MetaOption) :
    Except Fault (Result T) := do
  let mut result : Result T := { Success := true, Data := some val, Message := message }
  if opts.length > 0 then
    let holder ← opts.foldlM (fun m opt => callOption opt m) {}
    result := { result with Meta := some holder }
  return result

/-- Embedding of `Fail`. The struct literal evaluates `err.Error()`, a method
call through the interface value `err`, which faults when `err` is the nil
interface and may fault inside the method. The options are handled by a second
copy of the block of `Ok`. -/
def Fail {T : Type} (code : String) (err : Option GoError) (opts : List MetaOption) :
    Except Fault (Result T) := do
  let message ← match err with
    | some e => e.Error
    | none => throw Fault.nilDereference
  let mut result : Result T := {
    Success := false
    Data := none
    Error := some { Code := code, Message := message }
  }
  if opts.length > 0 then
    let holder ← opts.foldlM (fun m opt => callOption opt m) {}
    result := { result with Meta := some holder }
  return result

/-- Specification of "applying the options in the order given" in the words of
the claim about option order: the first option is applied to the holder, then
the remaining ones to what it left; an application that faults ends the whole
with that fault. -/
def applyInOrder : List MetaOption → Metadata → Except Fault Metadata
  | [], m => .ok m
  | o :: rest, m =>
    match callOption o m with
    | .ok m1 => applyInOrder rest m1
    | .error e => .error e

/-- Specification of the envelope invariant in the words of the claim: `Data`
and `Error` are never both present and never both absent, and `Success` is true
exactly when `Data` is present, equivalently exactly when `Error` is absent. -/
def Result.Exclusive {T : Type} (r : Result T) : Prop :=
  ¬ (r.Data.isSome = true ∧ r.Error.isSome = true) ∧
    ¬ (r.Data.isNone = true ∧ r.Error.isNone = true) ∧
    (r.Success = true ↔ r.Data.isSome = true) ∧
    (r.Success = true ↔ r.Error.isNone = true)

/-! ## search.go

A Go string is represented by the sequence of its code points (`String`, with
`String.data` as the list of runes), that is, the embedding covers strings that
are valid UTF-8 text. -/

/-- Go's `unicode.IsSpace`: in the Latin-1 range the runes tab, line feed,
vertical tab, form feed, carriage return, space, U+0085 and U+00A0; above it the
runes of the Unicode property White_Space. -/
def unicode.IsSpace (r : Char) : Bool :=
  if r.toNat ≤ 0xFF then
    r.toNat = 0x09 || r.toNat = 0x0A || r.toNat = 0x0B || r.toNat = 0x0C || r.toNat = 0x20 ||
      r.toNat = 0x0D || r.toNat = 0x85 || r.toNat = 0xA0
  else
    r.toNat = 0x1680 || (0x2000 ≤ r.toNat && r.toNat ≤ 0x200A) || r.toNat = 0x2028 ||
      r.toNat = 0x2029 || r.toNat = 0x202F || r.toNat = 0x205F || r.toNat = 0x3000

/-- Go's `strings.TrimLeftFunc` on the runes of a string: the leading runes that
satisfy `f` are removed. -/
def strings.TrimLeftFunc (s : List Char) (f : Char → Bool) : List Char :=
  s.dropWhile f

/-- Go's `strings.TrimRightFunc` on the runes of a string: the trailing runes
that satisfy `f` are removed. -/
def strings.TrimRightFunc (s : List Char) (f : Char → Bool) : List Char :=
  (s.reverse.dropWhile f).reverse

/-- Go's `strings.TrimSpace`: the string without its leading and trailing white
space, as defined by `unicode.IsSpace`. The library first scans ASCII bytes and
falls back to `TrimFunc(s, unicode.IsSpace)`, which is
`TrimRightFunc(TrimLeftFunc(s, f), f)`; on ASCII the two agree. -/
def strings.TrimSpace (s : String) : String :=
  String.mk (strings.TrimRightFunc (strings.TrimLeftFunc s.data unicode.IsSpace) unicode.IsSpace)

/-- Embedding of the struct `SearchRequest`. -/
structure SearchRequest where
  Query : String
  deriving DecidableEq, Repr

/-- Embedding of `NewSearchRequest`. -/
def NewSearchRequest (query : String) : SearchRequest :=
  { Query := query }

/-- Embedding of the method `QueryValue`. -/
def SearchRequest.QueryValue (s : SearchRequest) : String :=
  strings.TrimSpace s.Query

/-! ## Properties of the result envelope -/

/-- The loop of `Ok` and `Fail` over the options computes what the
specification calls applying the options in order. -/
theorem foldlM_eq_applyInOrder (opts : List MetaOption) (m : Metadata) :
    opts.foldlM (fun m opt => callOption opt m) m = applyInOrder opts m := by
  induction opts generalizing m with
  | nil => rfl
  | cons o rest ih =>
    simp only [List.foldlM_cons, applyInOrder]
    cases h : callOption o m with
    | error e => rfl
    | ok m1 => exact ih m1

/-- Options that are not nil and return normally can be applied in order
without a fault. -/
theorem applyInOrder_returns (opts : List MetaOption) (h : ∀ o ∈ opts, ReturnsNormally o)
    (m : Metadata) : ∃ m1, applyInOrder opts m = .ok m1 := by
  induction opts generalizing m with
  | nil => exact ⟨m, rfl⟩
  | cons o rest ih =>
    obtain ⟨f, hf, hret⟩ := h o (List.mem_cons_self o rest)
    obtain ⟨m1, hm1⟩ := hret m
    obtain ⟨m2, hm2⟩ := ih (fun o1 ho1 => h o1 (List.mem_cons_of_mem o ho1)) m1
    refine ⟨m2, ?_⟩
    subst hf
    simp only [applyInOrder, callOption, hm1, hm2]

/-- Closed form of `Ok`: the fields set by the struct literal, around the `Meta`
that the option block computes or fails to compute. -/
theorem Ok_eq {T : Type} (val : T) (message : String) (opts : List MetaOption) :
    Ok val message opts =
      Except.map
        (fun holder => { Success := true, Data := some val, Message := message, Error := none,
                         Meta := holder })
        (if opts.length > 0 then Except.map some (applyInOrder opts {}) else .ok none) := by
  by_cases h : opts.length > 0
  · simp only [Ok, h, if_true, foldlM_eq_applyInOrder]
    cases applyInOrder opts {} <;> rfl
  · simp only [Ok, h, if_false]
    rfl

/-- Closed form of `Fail` for an error value that is not nil and whose method
`Error()` returns a text. -/
theorem Fail_eq {T : Type} (code : String) (err : GoError) (text : String)
    (herr : err.Error = .ok text) (opts : List MetaOption) :
    (Fail code (some err) opts : Except Fault (Result T)) =
      Except.map
        (fun holder => { Success := false, Data := none, Message := "",
                         Error := some { Code := code, Message := text }, Meta := holder })
        (if opts.length > 0 then Except.map some (applyInOrder opts {}) else .ok none) := by
  by_cases h : opts.length > 0
  · simp only [Fail, herr, h, if_true, foldlM_eq_applyInOrder, bind, Except.bind]
    cases applyInOrder opts {} <;> rfl
  · simp only [Fail, herr, h, if_false, bind, Except.bind]
    rfl

/-- C1, as amended: for every payload type, every payload value (the zero value
included), every message and every list of options each of which is not nil and
returns normally, `Ok` returns a result whose `Success` is true, whose `Data` is
present and equal to the payload, whose `Message` is the given message and whose
`Error` is absent. -/
theorem Ok_fields {T : Type} (val : T) (message : String) (opts : List MetaOption)
    (h : ∀ o ∈ opts, ReturnsNormally o) :
    ∃ r : Result T, Ok val message opts = .ok r ∧ r.Success = true ∧ r.Data = some val ∧
      r.Message = message ∧ r.Error = none := by
  obtain ⟨m, hm⟩ := applyInOrder_returns opts h {}
  rw [Ok_eq, hm]
  by_cases hl : opts.length > 0
  · rw [if_pos hl]
    exact ⟨_, rfl, rfl, rfl, rfl, rfl⟩
  · rw [if_neg hl]
    exact ⟨_, rfl, rfl, rfl, rfl, rfl⟩

/-- Witness of C1: the zero value as payload, without options and with two
options. -/
theorem Ok_fields_witness :
    (∃ r : Result Nat, Ok (0 : Nat) "" [] = .ok r ∧ r.Success = true ∧ r.Data = some 0 ∧
      r.Message = "" ∧ r.Error = none) ∧
    (∃ r : Result Nat,
      Ok (0 : Nat) "created" [WithPagination ⟨95, 3, 10, 10, 20, true, true⟩,
          some (fun m => .ok { m with Pagination := none })] = .ok r ∧
        r.Success = true ∧ r.Data = some 0 ∧ r.Message = "created" ∧ r.Error = none) :=
  ⟨Ok_fields (0 : Nat) "" [] (by simp),
    Ok_fields (0 : Nat) "created" [WithPagination ⟨95, 3, 10, 10, 20, true, true⟩,
      some (fun m => .ok { m with Pagination := none })]
      (by
        intro o ho
        simp only [List.mem_cons, List.mem_singleton, List.not_mem_nil, or_false] at ho
        rcases ho with rfl | rfl
        · exact ⟨_, rfl, fun m => ⟨_, rfl⟩⟩
        · exact ⟨_, rfl, fun m => ⟨_, rfl⟩⟩)⟩

/-- Counterexample to C1 as stated: with a single nil option the call
`opt(result.Meta)` faults and `Ok` returns no result. -/
theorem Ok_nil_option_faults :
    (Ok (1 : Nat) "m" [none] : Except Fault (Result Nat)) = .error Fault.nilDereference ∧
      ¬ ∃ r : Result Nat, Ok (1 : Nat) "m" [none] = .ok r := by
  have h : (Ok (1 : Nat) "m" [none] : Except Fault (Result Nat)) =
      .error Fault.nilDereference := rfl
  refine ⟨h, ?_⟩
  rintro ⟨r, hr⟩
  rw [h] at hr
  cases hr

/-- C2, as amended: for every code (the empty string included), every error
value that is not nil and whose `Error()` returns, and every list of options
each of which is not nil and returns normally, `Fail` returns a result whose
`Success` is false, whose `Data` is absent, whose `Error` is present with the
given code and with the text of `err.Error()` as message, and whose `Message`
is empty. -/
theorem Fail_fields (T : Type) (code : String) (err : GoError) (text : String)
    (opts : List MetaOption) (herr : err.Error = .ok text)
    (h : ∀ o ∈ opts, ReturnsNormally o) :
    ∃ r : Result T, Fail code (some err) opts = .ok r ∧ r.Success = false ∧ r.Data = none ∧
      r.Error = some { Code := code, Message := text } ∧ r.Message = "" := by
  obtain ⟨m, hm⟩ := applyInOrder_returns opts h {}
  rw [Fail_eq code err text herr, hm]
  by_cases hl : opts.length > 0
  · rw [if_pos hl]
    exact ⟨_, rfl, rfl, rfl, rfl, rfl⟩
  · rw [if_neg hl]
    exact ⟨_, rfl, rfl, rfl, rfl, rfl⟩

/-- Witness of C2: the empty code, and a code together with an option. -/
theorem Fail_fields_witness :
    (∃ r : Result Nat, Fail "" (some ⟨.ok "boom"⟩) [] = .ok r ∧ r.Success = false ∧
      r.Data = none ∧ r.Error = some { Code := "", Message := "boom" } ∧ r.Message = "") ∧
    (∃ r : Result Nat,
      Fail "NOT_FOUND" (some ⟨.ok "record not found"⟩)
          [WithPagination ⟨5, 1, 1, 10, 0, false, false⟩] = .ok r ∧
        r.Success = false ∧ r.Data = none ∧
        r.Error = some { Code := "NOT_FOUND", Message := "record not found" } ∧
        r.Message = "") :=
  ⟨Fail_fields Nat "" ⟨.ok "boom"⟩ "boom" [] rfl (by simp),
    Fail_fields Nat "NOT_FOUND" ⟨.ok "record not found"⟩ "record not found"
      [WithPagination ⟨5, 1, 1, 10, 0, false, false⟩] rfl
      (by
        intro o ho
        simp only [List.mem_singleton] at ho
        subst ho
        exact ⟨_, rfl, fun m => ⟨_, rfl⟩⟩)⟩

/-- Counterexample to C2 as stated: with an error value that is not nil and a
single nil option the call `opt(result.Meta)` faults and `Fail` returns no
result. -/
theorem Fail_nil_option_faults :
    (Fail "NOT_FOUND" (some ⟨.ok "record not found"⟩) [none] :
        Except Fault (Result Nat)) = .error Fault.nilDereference ∧
      ¬ ∃ r : Result Nat, Fail "NOT_FOUND" (some ⟨.ok "record not found"⟩) [none] = .ok r := by
  have h : (Fail "NOT_FOUND" (some ⟨.ok "record not found"⟩) [none] :
      Except Fault (Result Nat)) = .error Fault.nilDereference := rfl
  refine ⟨h, ?_⟩
  rintro ⟨r, hr⟩
  rw [h] at hr
  cases hr

/-! ## Properties of the options -/

/-- C11: for every list of options that is not empty, the `Meta` of the result of
`Ok` is the outcome of applying the first option, then the second, and so on in
list order, to an initially empty `Metadata`, and `Ok` faults exactly when that
application does; in particular, of two pagination options the later one
determines `Meta.Pagination`. -/
theorem Ok_meta_in_order {T : Type} (val : T) (message : String) (opts : List MetaOption)
    (p1 p2 : Pagination) (h : opts ≠ []) :
    Except.map (fun r => r.Meta) (Ok val message opts) =
        Except.map some (applyInOrder opts {}) ∧
      ∃ r : Result T, Ok val message [WithPagination p1, WithPagination p2] = .ok r ∧
        r.Meta.bind Metadata.Pagination = some p2 := by
  constructor
  · rw [Ok_eq, if_pos (List.length_pos.mpr h)]
    cases applyInOrder opts {} <;> rfl
  · exact ⟨_, rfl, rfl⟩

/-- Witness of C11: three options, the last of which clears the pagination set
by the first two. -/
theorem Ok_meta_in_order_witness :
    Except.map (fun r => r.Meta)
        (Ok (7 : Nat) "done" [WithPagination ⟨95, 3, 10, 10, 20, true, true⟩,
          WithPagination ⟨5, 1, 1, 10, 0, false, false⟩,
          some (fun m => .ok { m with Pagination := none })]) =
      .ok (some { Pagination := none }) :=
  (Ok_meta_in_order (7 : Nat) "done" [WithPagination ⟨95, 3, 10, 10, 20, true, true⟩,
      WithPagination ⟨5, 1, 1, 10, 0, false, false⟩,
      some (fun m => .ok { m with Pagination := none })] ⟨95, 3, 10, 10, 20, true, true⟩
      ⟨5, 1, 1, 10, 0, false, false⟩ (by simp)).1

/-- C12, as amended: for `Ok` and for `Fail` with an error value that is not nil
and whose `Error()` returns, and for every list of options each of which is not
nil and returns normally, a result is returned and its `Meta` is absent exactly
when the list of options is empty. -/
theorem Meta_absent_iff (T : Type) (val : T) (message code : String) (err : GoError)
    (text : String) (opts : List MetaOption) (herr : err.Error = .ok text)
    (h : ∀ o ∈ opts, ReturnsNormally o) :
    (∃ r : Result T, Ok val message opts = .ok r ∧ (r.Meta = none ↔ opts = [])) ∧
      ∃ r : Result T, Fail code (some err) opts = .ok r ∧ (r.Meta = none ↔ opts = []) := by
  obtain ⟨m, hm⟩ := applyInOrder_returns opts h {}
  rw [Ok_eq, Fail_eq code err text herr, hm]
  cases opts with
  | nil => exact ⟨⟨_, rfl, by simp⟩, ⟨_, rfl, by simp⟩⟩
  | cons o rest =>
    have hl : (o :: rest).length > 0 := by simp
    rw [if_pos hl]
    exact ⟨⟨_, rfl, by simp [Except.map]⟩, ⟨_, rfl, by simp [Except.map]⟩⟩

/-- Witness of C12: an option that leaves the holder as it found it still makes
`Meta` present. -/
theorem Meta_absent_iff_witness :
    (∃ r : Result Nat, Ok (3 : Nat) "ok" [some (fun m => .ok m)] = .ok r ∧
      (r.Meta = none ↔ ([some (fun m => .ok m)] : List MetaOption) = [])) ∧
    ∃ r : Result Nat, Fail "E" (some ⟨.ok "boom"⟩) [some (fun m => .ok m)] = .ok r ∧
      (r.Meta = none ↔ ([some (fun m => .ok m)] : List MetaOption) = []) :=
  Meta_absent_iff Nat (3 : Nat) "ok" "E" ⟨.ok "boom"⟩ "boom" [some (fun m => .ok m)] rfl
    (by
      intro o ho
      simp only [List.mem_singleton] at ho
      subst ho
      exact ⟨_, rfl, fun m => ⟨_, rfl⟩⟩)

/-- Counterexample to C12 as stated: with one option, the nil option, neither
`Ok` nor `Fail` returns a result, so there is no `Meta` that is present. -/
theorem Meta_present_nil_option_fails :
    ([none] : List MetaOption) ≠ [] ∧
      (¬ ∃ r : Result Nat, Ok (3 : Nat) "ok" [none] = .ok r ∧ r.Meta ≠ none) ∧
      ¬ ∃ r : Result Nat, Fail "E" (some ⟨.ok "boom"⟩) [none] = .ok r ∧ r.Meta ≠ none := by
  have h1 : (Ok (3 : Nat) "ok" [none] : Except Fault (Result Nat)) =
      .error Fault.nilDereference := rfl
  have h2 : (Fail "E" (some ⟨.ok "boom"⟩) [none] : Except Fault (Result Nat)) =
      .error Fault.nilDereference := rfl
  refine ⟨by simp, ?_, ?_⟩
  · rintro ⟨r, hr, _⟩
    rw [h1] at hr
    cases hr
  · rintro ⟨r, hr, _⟩
    rw [h2] at hr
    cases hr

/-- C13: for every pagination value `p`, the single option `WithPagination p`
makes `Ok` and `Fail` return a `Meta` whose `Pagination` is present and equal to
`p`. -/
theorem WithPagination_attached (T : Type) (val : T) (message code : String) (err : GoError)
    (text : String) (p : Pagination) (herr : err.Error = .ok text) :
    (∃ r : Result T, Ok val message [WithPagination p] = .ok r ∧
        r.Meta.bind Metadata.Pagination = some p) ∧
      ∃ r : Result T, Fail code (some err) [WithPagination p] = .ok r ∧
        r.Meta.bind Metadata.Pagination = some p := by
  constructor
  · exact ⟨_, rfl, rfl⟩
  · rw [Fail_eq code err text herr]
    exact ⟨_, rfl, rfl⟩

/-- Witness of C13: the pagination of the scenario with total 95, offset 20 and
limit 10. -/
theorem WithPagination_attached_witness :
    (∃ r : Result Nat, Ok (1 : Nat) "ok" [WithPagination ⟨95, 3, 10, 10, 20, true, true⟩] =
        .ok r ∧ r.Meta.bind Metadata.Pagination = some ⟨95, 3, 10, 10, 20, true, true⟩) ∧
      ∃ r : Result Nat,
        Fail "E" (some ⟨.ok "boom"⟩) [WithPagination ⟨95, 3, 10, 10, 20, true, true⟩] = .ok r ∧
          r.Meta.bind Metadata.Pagination = some ⟨95, 3, 10, 10, 20, true, true⟩ :=
  WithPagination_attached Nat (1 : Nat) "ok" "E" ⟨.ok "boom"⟩ "boom"
    ⟨95, 3, 10, 10, 20, true, true⟩ rfl

/-- C14: for every list of options, `Fail` handles the options as `Ok` does:
whatever the payload, message, code and error are, the two calls return the same
`Meta`, and one faults in the option block exactly when the other does. -/
theorem Fail_meta_eq_Ok_meta (T1 T2 : Type) (val : T1) (message code : String) (err : GoError)
    (text : String) (opts : List MetaOption) (herr : err.Error = .ok text) :
    Except.map (fun r => r.Meta) (Fail code (some err) opts : Except Fault (Result T2)) =
      Except.map (fun r => r.Meta) (Ok val message opts) := by
  rw [Fail_eq code err text herr, Ok_eq]
  cases (if opts.length > 0 then Except.map some (applyInOrder opts {}) else .ok none) <;> rfl

/-- Witness of C14: one pagination option. -/
theorem Fail_meta_eq_Ok_meta_witness :
    Except.map (fun r => r.Meta)
        (Fail "E" (some ⟨.ok "boom"⟩) [WithPagination ⟨5, 1, 1, 10, 0, false, false⟩] :
          Except Fault (Result Nat)) =
      Except.map (fun r => r.Meta)
        (Ok "payload" "ok" [WithPagination ⟨5, 1, 1, 10, 0, false, false⟩]) :=
  Fail_meta_eq_Ok_meta String Nat "payload" "ok" "E" ⟨.ok "boom"⟩ "boom"
    [WithPagination ⟨5, 1, 1, 10, 0, false, false⟩] rfl

/-! ## Totality and the envelope invariant -/

/-- C16, as amended: for every code, every error value that is not nil and whose
`Error()` returns, and every list of options each of which is not nil and
returns normally, `Fail` returns a failure result and does not fault. -/
theorem Fail_returns_of_non_nil (T : Type) (code : String) (err : Option GoError)
    (opts : List MetaOption)
    (herr : ∃ e text, err = some e ∧ e.Error = .ok text)
    (h : ∀ o ∈ opts, ReturnsNormally o) :
    ∃ r : Result T, Fail code err opts = .ok r ∧ r.Success = false ∧ r.Error ≠ none := by
  obtain ⟨e, text, he, ht⟩ := herr
  obtain ⟨m, hm⟩ := applyInOrder_returns opts h {}
  subst he
  rw [Fail_eq code e text ht, hm]
  by_cases hl : opts.length > 0
  · rw [if_pos hl]
    exact ⟨_, rfl, rfl, by simp⟩
  · rw [if_neg hl]
    exact ⟨_, rfl, rfl, by simp⟩

/-- Witness of C16: an error value with the text "record not found". -/
theorem Fail_returns_of_non_nil_witness :
    ∃ r : Result Nat, Fail "NOT_FOUND" (some ⟨.ok "record not found"⟩) [] = .ok r ∧
      r.Success = false ∧ r.Error ≠ none :=
  Fail_returns_of_non_nil Nat "NOT_FOUND" (some ⟨.ok "record not found"⟩) []
    ⟨_, _, rfl, rfl⟩ (by simp)

/-- Counterexample to C16 as stated: with the nil error value the call
`err.Error()` faults and `Fail` returns no result. -/
theorem Fail_nil_error_faults :
    (Fail "NOT_FOUND" none [] : Except Fault (Result Nat)) = .error Fault.nilDereference ∧
      ¬ ∃ r : Result Nat, Fail "NOT_FOUND" none [] = .ok r := by
  refine ⟨rfl, ?_⟩
  rintro ⟨r, hr⟩
  have h : (Fail "NOT_FOUND" none [] : Except Fault (Result Nat)) =
      .error Fault.nilDereference := rfl
  rw [h] at hr
  cases hr

/-- C17: every result produced by `Ok` or by `Fail` has exactly one of `Data`
and `Error` present, and its `Success` is true exactly when `Data` is present,
equivalently exactly when `Error` is absent. -/
theorem Result_exclusive {T : Type} (val : T) (message code : String) (err : Option GoError)
    (opts : List MetaOption) :
    (∀ r : Result T, Ok val message opts = .ok r → r.Exclusive) ∧
      ∀ r : Result T, Fail code err opts = .ok r → r.Exclusive := by
  constructor
  · intro r hr
    rw [Ok_eq] at hr
    cases hm : (if opts.length > 0 then Except.map some (applyInOrder opts {}) else .ok none) with
    | error e =>
      rw [hm] at hr
      cases hr
    | ok holder =>
      rw [hm] at hr
      injection hr with hr
      subst hr
      simp [Result.Exclusive]
  · intro r hr
    cases err with
    | none =>
      have h : (Fail code none opts : Except Fault (Result T)) =
          .error Fault.nilDereference := rfl
      rw [h] at hr
      cases hr
    | some e =>
      cases ht : e.Error with
      | error f =>
        have h : (Fail code (some e) opts : Except Fault (Result T)) = .error f := by
          simp only [Fail, ht, bind, Except.bind]
        rw [h] at hr
        cases hr
      | ok text =>
        rw [Fail_eq code e text ht] at hr
        cases hm : (if opts.length > 0 then Except.map some (applyInOrder opts {})
            else .ok none) with
        | error e1 =>
          rw [hm] at hr
          cases hr
        | ok holder =>
          rw [hm] at hr
          injection hr with hr
          subst hr
          simp [Result.Exclusive]

/-- Witness of C17: a success and a failure that are really produced. -/
theorem Result_exclusive_witness :
    (∃ r : Result Nat, Ok (0 : Nat) "" [] = .ok r ∧ r.Exclusive) ∧
      ∃ r : Result Nat, Fail "" (some ⟨.ok "boom"⟩)
        [WithPagination ⟨5, 1, 1, 10, 0, false, false⟩] = .ok r ∧ r.Exclusive :=
  ⟨⟨_, rfl, (Result_exclusive (0 : Nat) "" "" none []).1 _ rfl⟩,
    ⟨_, rfl, (Result_exclusive (0 : Nat) "" "" (some ⟨.ok "boom"⟩)
      [WithPagination ⟨5, 1, 1, 10, 0, false, false⟩]).2 _ rfl⟩⟩

/-! ## Properties of request normalisation -/

/-- Closed form of `NewPaginationRequest`: the two fields are normalised
independently of each other. -/
theorem NewPaginationRequest_eq (offset limit : Int) :
    NewPaginationRequest offset limit =
      { Offset := if offset < 0 then 0 else offset
        Limit := if limit < 1 then 10 else if limit > 100 then 100 else limit } := by
  by_cases h : offset < 0 <;> by_cases h1 : limit < 1 <;> by_cases h2 : limit > 100 <;>
    simp [NewPaginationRequest, Id.run, defaultLimit, maxLimit, h, h1, h2]

/-- C3: the limit of a normalised request is 10 when the requested limit is
below 1, 100 when it is above 100, and the requested limit itself when it lies in
[1, 100]; `GetLimit` returns that field. -/
theorem NewPaginationRequest_limit (offset limit : Int) :
    (limit < 1 → (NewPaginationRequest offset limit).Limit = 10) ∧
      (limit > 100 → (NewPaginationRequest offset limit).Limit = 100) ∧
      (1 ≤ limit → limit ≤ 100 → (NewPaginationRequest offset limit).Limit = limit) ∧
      (NewPaginationRequest offset limit).GetLimit = (NewPaginationRequest offset limit).Limit := by
  refine ⟨fun h => ?_, fun h => ?_, fun h1 h2 => ?_, rfl⟩
  · rw [NewPaginationRequest_eq]
    simp [h]
  · rw [NewPaginationRequest_eq]
    have h1 : ¬ limit < 1 := by omega
    simp [h, h1]
  · rw [NewPaginationRequest_eq]
    have h3 : ¬ limit < 1 := by omega
    have h4 : ¬ 100 < limit := by omega
    simp [h3, h4]

/-- Witness of C3: one requested limit in each of the three ranges. -/
theorem NewPaginationRequest_limit_witness :
    (NewPaginationRequest 5 0).Limit = 10 ∧ (NewPaginationRequest 5 250).Limit = 100 ∧
      (NewPaginationRequest 5 37).Limit = 37 :=
  ⟨(NewPaginationRequest_limit 5 0).1 (by decide),
    (NewPaginationRequest_limit 5 250).2.1 (by decide),
    (NewPaginationRequest_limit 5 37).2.2.1 (by decide) (by decide)⟩

/-- C4: the offset of a normalised request is 0 when the requested offset is
negative and the requested offset itself otherwise, whatever the limit is;
`GetOffset` returns that field. -/
theorem NewPaginationRequest_offset (offset limit : Int) :
    (offset < 0 → (NewPaginationRequest offset limit).Offset = 0) ∧
      (0 ≤ offset → (NewPaginationRequest offset limit).Offset = offset) ∧
      (∀ limit2 : Int,
        (NewPaginationRequest offset limit2).Offset = (NewPaginationRequest offset limit).Offset) ∧
      (NewPaginationRequest offset limit).GetOffset =
        (NewPaginationRequest offset limit).Offset := by
  refine ⟨fun h => ?_, fun h => ?_, fun l => ?_, rfl⟩
  · rw [NewPaginationRequest_eq]
    simp [h]
  · rw [NewPaginationRequest_eq]
    have h1 : ¬ offset < 0 := by omega
    simp [h1]
  · rw [NewPaginationRequest_eq, NewPaginationRequest_eq]

/-- Witness of C4: a negative and a non-negative requested offset. -/
theorem NewPaginationRequest_offset_witness :
    (NewPaginationRequest (-7) 20).Offset = 0 ∧ (NewPaginationRequest 40 20).Offset = 40 :=
  ⟨(NewPaginationRequest_offset (-7) 20).1 (by decide),
    (NewPaginationRequest_offset 40 20).2.1 (by decide)⟩

/-- C5: every request returned by `NewPaginationRequest` has a non-negative
offset and a limit between 1 and 100. -/
theorem NewPaginationRequest_bounds (offset limit : Int) :
    0 ≤ (NewPaginationRequest offset limit).Offset ∧
      1 ≤ (NewPaginationRequest offset limit).Limit ∧
      (NewPaginationRequest offset limit).Limit ≤ 100 := by
  rw [NewPaginationRequest_eq]
  refine ⟨?_, ?_, ?_⟩ <;> simp only <;> split_ifs <;> omega

/-! ## Properties of the pagination arithmetic -/

/-- A value of the `int` type of the platform is left unchanged by the
wrap-around. -/
theorem wrap_of_inRange (sz : IntSize) (x : Int) (h : inRange sz.bits x) :
    wrap sz.bits x = x := by
  cases sz <;> simp only [inRange, minOf, maxOf, IntSize.bits, wrap] at * <;> omega

/-- A value of the `int64` type is left unchanged by the wrap-around. -/
theorem wrap64_of_inRange (x : Int) (h : inRange 64 x) : wrap 64 x = x := by
  simp only [inRange, minOf, maxOf, wrap] at *
  omega

/-- Closed form of `NewPagination`: the call always returns, and every field is
given by the expression the source assigns to it. -/
theorem NewPagination_eq (sz : IntSize) (total offset limit : Int) :
    NewPagination sz total offset limit = .ok {
      Total := total
      Page := if limit > 0 then wrap sz.bits (wrap sz.bits (offset.tdiv limit) + 1) else 1
      TotalPages := if limit > 0 then
        wrap sz.bits (wrap 64 ((wrap 64 (wrap 64 (total + limit) - 1)).tdiv limit)) else 0
      Limit := limit
      Offset := offset
      HasNext := decide (wrap sz.bits (offset + limit) < total)
      HasPrev := decide (offset > 0) } := by
  by_cases h : limit > 0
  · have h0 : limit ≠ 0 := by omega
    simp [NewPagination, h, h0, goDiv, goAdd, goSub, toInt, toInt64, bind, Except.bind, pure,
      Except.pure, Functor.map, Except.map]
  · simp [NewPagination, h, goDiv, goAdd, goSub, toInt, toInt64, bind, Except.bind, pure,
      Except.pure, Functor.map, Except.map]

/-- Truncated quotient by a positive divisor: it lies between the dividend and
zero; for a non-negative dividend it is at most half the dividend when the
divisor is at least two, and the dividend itself when the divisor is one. -/
theorem tdiv_pos_bounds (x y : Int) (hy : 0 < y) :
    (0 ≤ x → 0 ≤ x.tdiv y ∧ x.tdiv y ≤ x ∧ (2 ≤ y → 2 * x.tdiv y ≤ x) ∧ (y = 1 → x.tdiv y = x)) ∧
      (x < 0 → x ≤ x.tdiv y ∧ x.tdiv y ≤ 0) := by
  constructor
  · intro hx
    have e : x.tdiv y = x / y := Int.tdiv_eq_ediv hx (le_of_lt hy)
    rw [e]
    have h1 : 0 ≤ x / y := Int.ediv_nonneg hx (le_of_lt hy)
    have h2 : x / y * y ≤ x := Int.ediv_mul_le x (ne_of_gt hy)
    refine ⟨h1, Int.ediv_le_self y hx, fun h => by nlinarith, fun h => by subst h; simp⟩
  · intro hx
    have e : x.tdiv y = -((-x) / y) := by
      have := Int.neg_tdiv (-x) y
      rw [neg_neg] at this
      rw [this, Int.tdiv_eq_ediv (by omega) (le_of_lt hy)]
    rw [e]
    have h1 : 0 ≤ (-x) / y := Int.ediv_nonneg (by omega) (le_of_lt hy)
    have h2 : (-x) / y ≤ -x := Int.ediv_le_self y (by omega)
    omega

/-- C6, as amended: for every total, every `int` offset and every limit above
zero, `NewPagination` returns a page equal to `offset / limit + 1`, the quotient
being truncated toward zero, except when the offset is the largest `int` and the
limit is one: there the sum does not fit an `int` and the page is the smallest
`int`. -/
theorem NewPagination_page (sz : IntSize) (total offset limit : Int) (hl : 0 < limit)
    (ho : inRange sz.bits offset) :
    ∃ p, NewPagination sz total offset limit = .ok p ∧
      p.Page = if offset = maxOf sz.bits ∧ limit = 1 then minOf sz.bits
        else offset.tdiv limit + 1 := by
  rw [NewPagination_eq]
  refine ⟨_, rfl, ?_⟩
  simp only [gt_iff_lt, hl, if_true]
  have hb := tdiv_pos_bounds offset limit hl
  by_cases hc : offset = maxOf sz.bits ∧ limit = 1
  · rw [if_pos hc]
    obtain ⟨h1, h2⟩ := hc
    subst h2
    subst h1
    cases sz <;> simp [IntSize.bits, maxOf, minOf, wrap]
  · rw [if_neg hc]
    have hq : inRange sz.bits (offset.tdiv limit) ∧ inRange sz.bits (offset.tdiv limit + 1) := by
      rcases (by omega : limit = 1 ∨ 2 ≤ limit) with h1 | h2
      · have hne : offset ≠ maxOf sz.bits := fun e => hc ⟨e, h1⟩
        rcases lt_or_le offset 0 with hneg | hpos
        · have := hb.2 hneg
          cases sz <;> simp only [inRange, minOf, maxOf, IntSize.bits] at * <;> omega
        · have := (hb.1 hpos).2.2.2 h1
          cases sz <;> simp only [inRange, minOf, maxOf, IntSize.bits] at * <;> omega
      · rcases lt_or_le offset 0 with hneg | hpos
        · have := hb.2 hneg
          cases sz <;> simp only [inRange, minOf, maxOf, IntSize.bits] at * <;> omega
        · have := (hb.1 hpos).2.2.1 h2
          have := (hb.1 hpos).1
          cases sz <;> simp only [inRange, minOf, maxOf, IntSize.bits] at * <;> omega
    rw [wrap_of_inRange sz _ hq.1, wrap_of_inRange sz _ hq.2]

/-- Witness of C6: the two scenarios of the claim, one on each platform. -/
theorem NewPagination_page_witness :
    (∃ p, NewPagination .bits64 95 20 10 = .ok p ∧ p.Page = 3) ∧
      (∃ p, NewPagination .bits32 100 90 10 = .ok p ∧ p.Page = 10) :=
  ⟨NewPagination_page .bits64 95 20 10 (by decide) (by decide),
    NewPagination_page .bits32 100 90 10 (by decide) (by decide)⟩

/-- Counterexample to C6 as stated: on a 64-bit platform, with offset
9223372036854775807 and limit 1, the page is not `offset / limit + 1`. -/
theorem NewPagination_page_overflow :
    ∃ p, NewPagination .bits64 0 9223372036854775807 1 = .ok p ∧
      p.Page = -9223372036854775808 ∧
      p.Page ≠ (9223372036854775807 : Int).tdiv 1 + 1 :=
  ⟨_, rfl, by decide, by decide⟩

/-- C7, as amended: for every total at or above zero and every limit above zero
such that `total + limit - 1` does not exceed the largest `int64` and the number
of pages fits the `int` of the platform, `NewPagination` returns as `TotalPages`
the ceiling of `total / limit`, the least `k ≥ 0` with `k * limit ≥ total`. -/
theorem NewPagination_totalPages (sz : IntSize) (total offset limit : Int) (ht : 0 ≤ total)
    (hl : 0 < limit) (h64 : total + limit - 1 ≤ maxOf 64) (hfit : total ≤ maxOf sz.bits * limit) :
    ∃ p, NewPagination sz total offset limit = .ok p ∧ IsCeilDiv p.TotalPages total limit := by
  rw [NewPagination_eq]
  refine ⟨_, rfl, ?_⟩
  simp only [gt_iff_lt, hl, if_true]
  have hsum : wrap 64 (wrap 64 (total + limit) - 1) = total + limit - 1 := by
    simp only [maxOf, wrap] at *
    omega
  have hq : (total + limit - 1).tdiv limit = (total + limit - 1) / limit :=
    Int.tdiv_eq_ediv (by omega) (le_of_lt hl)
  have q0 : 0 ≤ (total + limit - 1) / limit := Int.ediv_nonneg (by omega) (le_of_lt hl)
  have qle : (total + limit - 1) / limit ≤ total + limit - 1 := Int.ediv_le_self limit (by omega)
  have qfit : (total + limit - 1) / limit < maxOf sz.bits + 1 :=
    Int.ediv_lt_of_lt_mul hl (by nlinarith)
  have qmul : total ≤ (total + limit - 1) / limit * limit := by
    have h1 := Int.emod_add_ediv (total + limit - 1) limit
    have h2 := Int.emod_lt_of_pos (total + limit - 1) hl
    nlinarith
  have w64 : wrap 64 ((total + limit - 1) / limit) = (total + limit - 1) / limit :=
    wrap64_of_inRange _ (by simp only [inRange, minOf, maxOf] at *; omega)
  have wsz : wrap sz.bits ((total + limit - 1) / limit) = (total + limit - 1) / limit :=
    wrap_of_inRange sz _
      (by cases sz <;> simp only [inRange, minOf, maxOf, IntSize.bits] at * <;> omega)
  rw [hsum, hq, w64, wsz]
  refine ⟨q0, qmul, fun j hj hjt => ?_⟩
  have : (total + limit - 1) / limit < j + 1 := Int.ediv_lt_of_lt_mul hl (by nlinarith)
  omega

/-- Witness of C7: the three scenarios of the claim. -/
theorem NewPagination_totalPages_witness :
    (∃ p, NewPagination .bits64 95 20 10 = .ok p ∧ IsCeilDiv p.TotalPages 95 10) ∧
      (∃ p, NewPagination .bits64 5 0 10 = .ok p ∧ IsCeilDiv p.TotalPages 5 10) ∧
      (∃ p, NewPagination .bits32 0 0 10 = .ok p ∧ IsCeilDiv p.TotalPages 0 10) :=
  ⟨NewPagination_totalPages .bits64 95 20 10 (by decide) (by decide) (by decide) (by decide),
    NewPagination_totalPages .bits64 5 0 10 (by decide) (by decide) (by decide) (by decide),
    NewPagination_totalPages .bits32 0 0 10 (by decide) (by decide) (by decide) (by decide)⟩

/-- Counterexample to C7 as stated: on a 64-bit platform, with total
9223372036854775807 and limit 2, the sum `total + limit - 1` wraps around and
`TotalPages` is negative, so it is not the ceiling of `total / limit`. -/
theorem NewPagination_totalPages_overflow :
    ∃ p, NewPagination .bits64 9223372036854775807 0 2 = .ok p ∧
      p.TotalPages = -4611686018427387904 ∧
      ¬ IsCeilDiv p.TotalPages 9223372036854775807 2 :=
  ⟨_, rfl, by decide, fun h => absurd h.1 (by decide)⟩

/-- C8: for every total and offset, whenever the limit is zero or negative
`NewPagination` returns normally, no division being evaluated, with page 1 and
zero total pages. -/
theorem NewPagination_degenerate (sz : IntSize) (total offset limit : Int) (hl : limit ≤ 0) :
    ∃ p, NewPagination sz total offset limit = .ok p ∧ p.Page = 1 ∧ p.TotalPages = 0 := by
  rw [NewPagination_eq]
  have h : ¬ limit > 0 := by omega
  exact ⟨_, rfl, by simp [h], by simp [h]⟩

/-- Witness of C8: the scenario with total 100, offset 0 and limit 0, and a
negative limit. -/
theorem NewPagination_degenerate_witness :
    (∃ p, NewPagination .bits64 100 0 0 = .ok p ∧ p.Page = 1 ∧ p.TotalPages = 0) ∧
      (∃ p, NewPagination .bits32 100 30 (-4) = .ok p ∧ p.Page = 1 ∧ p.TotalPages = 0) :=
  ⟨NewPagination_degenerate .bits64 100 0 0 (by decide),
    NewPagination_degenerate .bits32 100 30 (-4) (by decide)⟩

/-- C9, as amended: for every total, offset and limit, normalised or not, whose
sum `offset + limit` fits the `int` of the platform, `HasNext` is true exactly
when `offset + limit < total`. -/
theorem NewPagination_hasNext (sz : IntSize) (total offset limit : Int)
    (h : inRange sz.bits (offset + limit)) :
    ∃ p, NewPagination sz total offset limit = .ok p ∧
      (p.HasNext = true ↔ offset + limit < total) := by
  rw [NewPagination_eq]
  refine ⟨_, rfl, ?_⟩
  simp [wrap_of_inRange sz _ h]

/-- Witness of C9: a window that ends at the total and a window with items
beyond it. -/
theorem NewPagination_hasNext_witness :
    (∃ p, NewPagination .bits64 100 90 10 = .ok p ∧ (p.HasNext = true ↔ (90 : Int) + 10 < 100)) ∧
      (∃ p, NewPagination .bits32 95 20 10 = .ok p ∧ (p.HasNext = true ↔ (20 : Int) + 10 < 95)) :=
  ⟨NewPagination_hasNext .bits64 100 90 10 (by decide),
    NewPagination_hasNext .bits32 95 20 10 (by decide)⟩

/-- Counterexample to C9 as stated: on a 64-bit platform, with total 5, offset
9223372036854775798 and limit 10, the sum `offset + limit` wraps around to a
negative value and `HasNext` is true although `offset + limit` exceeds the
total. -/
theorem NewPagination_hasNext_overflow :
    ∃ p, NewPagination .bits64 5 9223372036854775798 10 = .ok p ∧
      p.HasNext = true ∧ ¬ ((9223372036854775798 : Int) + 10 < 5) :=
  ⟨_, rfl, by decide, by decide⟩

/-- C10: for every total, offset and limit, `NewPagination` returns `HasPrev`
true exactly when the offset is above zero, and it returns the supplied total,
offset and limit unchanged in the fields `Total`, `Offset` and `Limit`. -/
theorem NewPagination_hasPrev_echo (sz : IntSize) (total offset limit : Int) :
    ∃ p, NewPagination sz total offset limit = .ok p ∧ (p.HasPrev = true ↔ offset > 0) ∧
      p.Total = total ∧ p.Offset = offset ∧ p.Limit = limit := by
  rw [NewPagination_eq]
  exact ⟨_, rfl, by simp, rfl, rfl, rfl⟩

/-! ## Properties of the search request -/

/-- A list is its leading run of `f`, its trimmed part and the trailing run of
`f` of what follows the leading run. -/
theorem trim_decomposition (f : Char → Bool) (l : List Char) :
    l = l.takeWhile f ++ strings.TrimRightFunc (strings.TrimLeftFunc l f) f ++
      ((l.dropWhile f).reverse.takeWhile f).reverse := by
  have h1 : strings.TrimRightFunc (strings.TrimLeftFunc l f) f ++
      ((l.dropWhile f).reverse.takeWhile f).reverse = l.dropWhile f := by
    unfold strings.TrimRightFunc strings.TrimLeftFunc
    rw [← List.reverse_append, List.takeWhile_append_dropWhile, List.reverse_reverse]
  rw [List.append_assoc, h1, List.takeWhile_append_dropWhile]

/-- The first element of a trimmed list does not satisfy `f`. -/
theorem trim_head_not (f : Char → Bool) (l : List Char) (c : Char)
    (h : (strings.TrimRightFunc (strings.TrimLeftFunc l f) f).head? = some c) : f c = false := by
  have hp : strings.TrimRightFunc (strings.TrimLeftFunc l f) f <+: l.dropWhile f :=
    List.rdropWhile_prefix f (l.dropWhile f)
  obtain ⟨t, ht⟩ := hp
  have hd : (l.dropWhile f).head? = some c := by
    rw [← ht, List.head?_append, h]
    rfl
  have := List.head?_dropWhile_not f l
  rw [hd] at this
  exact this

/-- The last element of a trimmed list does not satisfy `f`. -/
theorem trim_last_not (f : Char → Bool) (l : List Char) (c : Char)
    (h : (strings.TrimRightFunc (strings.TrimLeftFunc l f) f).getLast? = some c) :
    f c = false := by
  have hne : List.rdropWhile f (l.dropWhile f) ≠ [] := by
    intro e
    have e2 : strings.TrimRightFunc (strings.TrimLeftFunc l f) f = [] := e
    rw [e2] at h
    simp at h
  have hlast := List.rdropWhile_last_not f (l.dropWhile f) hne
  have h2 : (List.rdropWhile f (l.dropWhile f)).getLast? = some c := h
  rw [List.getLast?_eq_getLast _ hne] at h2
  have h3 := Option.some.inj h2
  rw [h3] at hlast
  simpa using hlast

/-- Trimming a trimmed list changes nothing. -/
theorem trim_idempotent (f : Char → Bool) (l : List Char) :
    strings.TrimRightFunc
        (strings.TrimLeftFunc (strings.TrimRightFunc (strings.TrimLeftFunc l f) f) f) f =
      strings.TrimRightFunc (strings.TrimLeftFunc l f) f := by
  have hleft : strings.TrimLeftFunc (strings.TrimRightFunc (strings.TrimLeftFunc l f) f) f =
      strings.TrimRightFunc (strings.TrimLeftFunc l f) f := by
    generalize hm : strings.TrimRightFunc (strings.TrimLeftFunc l f) f = m
    cases m with
    | nil => rfl
    | cons c rest =>
      have hc := trim_head_not f l c (by rw [hm]; rfl)
      simp [strings.TrimLeftFunc, List.dropWhile, hc]
  rw [hleft]
  exact List.rdropWhile_idempotent f _

/-- C15: `NewSearchRequest` stores the query unchanged, and `QueryValue` returns
a contiguous part of it: what precedes the part and what follows it is white
space only, and the part neither begins nor ends with a white-space rune, so
that exactly the maximal leading and trailing runs of white space are removed
and everything between them is kept as it is. -/
theorem QueryValue_trims (q : String) :
    (NewSearchRequest q).Query = q ∧
      ∃ pre suf : List Char,
        q.data = pre ++ (NewSearchRequest q).QueryValue.data ++ suf ∧
        (∀ c ∈ pre, unicode.IsSpace c = true) ∧
        (∀ c ∈ suf, unicode.IsSpace c = true) ∧
        (∀ c, (NewSearchRequest q).QueryValue.data.head? = some c → unicode.IsSpace c = false) ∧
        (∀ c, (NewSearchRequest q).QueryValue.data.getLast? = some c →
          unicode.IsSpace c = false) := by
  refine ⟨rfl, q.data.takeWhile unicode.IsSpace,
    ((q.data.dropWhile unicode.IsSpace).reverse.takeWhile unicode.IsSpace).reverse, ?_, ?_, ?_, ?_, ?_⟩
  · exact trim_decomposition unicode.IsSpace q.data
  · intro c hc
    exact List.mem_takeWhile_imp hc
  · intro c hc
    exact List.mem_takeWhile_imp (List.mem_reverse.mp hc)
  · intro c hc
    exact trim_head_not unicode.IsSpace q.data c hc
  · intro c hc
    exact trim_last_not unicode.IsSpace q.data c hc

/-- Examples of C15: the three queries of the specification, and a query with
inner white space and capital letters. -/
theorem QueryValue_examples :
    (NewSearchRequest "  hello world  ").QueryValue = "hello world" ∧
      (NewSearchRequest "").QueryValue = "" ∧
      (NewSearchRequest "\t\n").QueryValue = "" ∧
      (NewSearchRequest " \r\n Go  Lang\t ").QueryValue = "Go  Lang" ∧
      (NewSearchRequest "  hello world  ").Query = "  hello world  " :=
  ⟨by decide, by decide, by decide, by decide, (QueryValue_trims "  hello world  ").1⟩

/-- C20: `QueryValue` is idempotent: normalising the normalised query again
returns the same string. -/
theorem QueryValue_idempotent (q : String) :
    (NewSearchRequest (NewSearchRequest q).QueryValue).QueryValue =
      (NewSearchRequest q).QueryValue := by
  simp only [NewSearchRequest, SearchRequest.QueryValue, strings.TrimSpace]
  rw [trim_idempotent]

/-! ## Relations between the pagination fields -/

/-- The page expression of `NewPagination` without wrap-around: for an offset
at or above zero whose sum with the limit fits an `int`. -/
theorem page_expr_exact (sz : IntSize) (offset limit : Int) (ho : 0 ≤ offset) (hl : 0 < limit)
    (hsum : offset + limit ≤ maxOf sz.bits) :
    wrap sz.bits (wrap sz.bits (offset.tdiv limit) + 1) = offset / limit + 1 := by
  have hb := (tdiv_pos_bounds offset limit hl).1 ho
  have e : offset.tdiv limit = offset / limit := Int.tdiv_eq_ediv ho (le_of_lt hl)
  rw [e] at hb ⊢
  have h1 : inRange sz.bits (offset / limit) := by
    cases sz <;> simp only [inRange, minOf, maxOf, IntSize.bits] at * <;> omega
  have h2 : inRange sz.bits (offset / limit + 1) := by
    cases sz <;> simp only [inRange, minOf, maxOf, IntSize.bits] at * <;> omega
  rw [wrap_of_inRange sz _ h1, wrap_of_inRange sz _ h2]

/-- The total-pages expression of `NewPagination` without wrap-around. -/
theorem totalPages_expr_exact (sz : IntSize) (total limit : Int) (ht : 0 ≤ total) (hl : 0 < limit)
    (h64 : total + limit - 1 ≤ maxOf 64) (hfit : total ≤ maxOf sz.bits * limit) :
    wrap sz.bits (wrap 64 ((wrap 64 (wrap 64 (total + limit) - 1)).tdiv limit)) =
      (total + limit - 1) / limit := by
  have hsum : wrap 64 (wrap 64 (total + limit) - 1) = total + limit - 1 := by
    simp only [maxOf, wrap] at *
    omega
  have hq : (total + limit - 1).tdiv limit = (total + limit - 1) / limit :=
    Int.tdiv_eq_ediv (by omega) (le_of_lt hl)
  have q0 : 0 ≤ (total + limit - 1) / limit := Int.ediv_nonneg (by omega) (le_of_lt hl)
  have qle : (total + limit - 1) / limit ≤ total + limit - 1 := Int.ediv_le_self limit (by omega)
  have qfit : (total + limit - 1) / limit < maxOf sz.bits + 1 :=
    Int.ediv_lt_of_lt_mul hl (by nlinarith)
  have w64 : wrap 64 ((total + limit - 1) / limit) = (total + limit - 1) / limit :=
    wrap64_of_inRange _ (by simp only [inRange, minOf, maxOf] at *; omega)
  have wsz : wrap sz.bits ((total + limit - 1) / limit) = (total + limit - 1) / limit :=
    wrap_of_inRange sz _
      (by cases sz <;> simp only [inRange, minOf, maxOf, IntSize.bits] at * <;> omega)
  rw [hsum, hq, w64, wsz]

/-- C18, as amended: for every total and offset at or above zero and every limit
above zero such that `offset + limit` fits the `int` of the platform,
`total + limit - 1` fits an `int64` and the number of pages fits an `int`, a
true `HasNext` implies that `Page` is below `TotalPages`; when the offset is a
multiple of the limit the converse holds as well. -/
theorem NewPagination_hasNext_page (sz : IntSize) (total offset limit : Int) (ht : 0 ≤ total)
    (ho : 0 ≤ offset) (hl : 0 < limit) (hsum : offset + limit ≤ maxOf sz.bits)
    (h64 : total + limit - 1 ≤ maxOf 64) (hfit : total ≤ maxOf sz.bits * limit) :
    ∃ p, NewPagination sz total offset limit = .ok p ∧
      (p.HasNext = true → p.Page < p.TotalPages) ∧
      (limit ∣ offset → p.Page < p.TotalPages → p.HasNext = true) := by
  rw [NewPagination_eq]
  refine ⟨_, rfl, ?_⟩
  simp only [gt_iff_lt, hl, if_true]
  rw [page_expr_exact sz offset limit ho hl hsum,
    totalPages_expr_exact sz total limit ht hl h64 hfit]
  have hr : inRange sz.bits (offset + limit) := by
    cases sz <;> simp only [inRange, minOf, maxOf, IntSize.bits] at * <;> omega
  rw [wrap_of_inRange sz _ hr]
  simp only [decide_eq_true_eq]
  have hlow : offset / limit * limit ≤ offset := Int.ediv_mul_le offset (ne_of_gt hl)
  constructor
  · intro hn
    have : offset / limit + 2 ≤ (total + limit - 1) / limit := by
      rw [Int.le_ediv_iff_mul_le hl]
      nlinarith
    omega
  · intro hdvd hp
    have hoff : offset / limit * limit = offset := Int.ediv_mul_cancel hdvd
    have h2 : offset / limit + 2 ≤ (total + limit - 1) / limit := by omega
    rw [Int.le_ediv_iff_mul_le hl] at h2
    nlinarith

/-- Witness of C18: the scenario with total 95, offset 20 and limit 10, where
both directions apply, on each platform. -/
theorem NewPagination_hasNext_page_witness :
    (∃ p, NewPagination .bits64 95 20 10 = .ok p ∧ (p.HasNext = true → p.Page < p.TotalPages) ∧
      ((10 : Int) ∣ 20 → p.Page < p.TotalPages → p.HasNext = true)) ∧
    (∃ p, NewPagination .bits32 100 90 10 = .ok p ∧ (p.HasNext = true → p.Page < p.TotalPages) ∧
      ((10 : Int) ∣ 90 → p.Page < p.TotalPages → p.HasNext = true)) :=
  ⟨NewPagination_hasNext_page .bits64 95 20 10 (by decide) (by decide) (by decide) (by decide)
      (by decide) (by decide),
    NewPagination_hasNext_page .bits32 100 90 10 (by decide) (by decide) (by decide) (by decide)
      (by decide) (by decide)⟩

/-- Counterexample to C18 as stated: on a 64-bit platform, with total
9223372036854775807, offset 3 and limit 3, `HasNext` is true while
`total + limit - 1` wraps around, `TotalPages` is negative and `Page` is not
below it. -/
theorem NewPagination_hasNext_page_overflow :
    ∃ p, NewPagination .bits64 9223372036854775807 3 3 = .ok p ∧
      p.HasNext = true ∧ p.Page = 2 ∧ p.TotalPages = -3074457345618258602 ∧
      ¬ p.Page < p.TotalPages :=
  ⟨_, rfl, by decide, by decide, by decide, by decide⟩

/-- C19: `NewPaginationRequest` is idempotent: normalising the fields of a
normalised request returns the same request. -/
theorem NewPaginationRequest_idempotent (offset limit : Int) :
    NewPaginationRequest (NewPaginationRequest offset limit).Offset
        (NewPaginationRequest offset limit).Limit =
      NewPaginationRequest offset limit := by
  rw [NewPaginationRequest_eq offset limit, NewPaginationRequest_eq]
  simp only
  congr 1 <;> split_ifs <;> omega

end Resultx
